import Mathlib

/-
Verification of the captioning pipeline in src/translator-backend.py.

Strings are modelled as List Char.  Each definition below embeds one Python
function or method of the source file; doc comments name the source symbol.
Asynchronous effects (broadcasts, translator calls, the supervisor loop) are
made explicit: broadcasts and translator invocations are recorded in the
returned state, and the supervisor loop is driven by a list of per-attempt
outcomes, producing the trace of its actions.
-/

set_option autoImplicit false

namespace TranslatorBackend

/-- Whitespace characters recognised by Python str.split() / str.strip()
(ASCII fragment: space, tab, newline, carriage return, vertical tab, form feed). -/
def isPySpace (c : Char) : Bool :=
  c = ' ' || c = '\t' || c = '\n' || c = '\r' || c = '\x0b' || c = '\x0c'

/-- Worker for pySplit: scan the text, accumulating the current word reversed in acc;
whitespace flushes the accumulated word, end of input flushes the final word. -/
def pySplitAux : List Char → List Char → List (List Char)
  | [], acc => if acc = [] then [] else [acc.reverse]
  | c :: rest, acc =>
      if isPySpace c then
        if acc = [] then pySplitAux rest []
        else acc.reverse :: pySplitAux rest []
      else pySplitAux rest (c :: acc)

/-- Python text.split() with no separator: split on runs of whitespace,
discarding empty pieces (used by wrap_fa, line 86 of the source). -/
def pySplit (s : List Char) : List (List Char) :=
  pySplitAux s []

/-- Python text.strip(): drop leading and trailing whitespace
(used on transcripts at line 236 of the source). -/
def pyStrip (s : List Char) : List Char :=
  ((s.dropWhile isPySpace).reverse.dropWhile isPySpace).reverse

/-- The per-word cost in wrap_fa: len(w) + (1 if current else 0) (source line 92). -/
def extraFor (w : List Char) (current : List (List Char)) : Nat :=
  w.length + (if current = [] then 0 else 1)

/-- Loop of wrap_fa (source lines 91-102), kept at the level of word chunks:
each emitted element is the list of words of one output line.  The source
appends " ".join(current) at each emission; wrap_fa below applies that join
to every emitted chunk. -/
def wrapChunks (maxChars : Nat) : List (List Char) → List (List Char) → Nat → List (List (List Char))
  | [], current, _ =>
      if current = [] then [] else [current]
  | w :: ws, current, length =>
      if length + extraFor w current > maxChars ∧ current ≠ [] then
        current :: wrapChunks maxChars ws [w] w.length
      else
        wrapChunks maxChars ws (current ++ [w]) (length + extraFor w current)

/-- wrap_fa(text, max_chars) (source lines 85-104): greedy word wrap.
Splits the text into words, accumulates words into lines while the running
length stays within the budget, and joins each finished line with single spaces. -/
def wrap_fa (text : List Char) (maxChars : Nat) : List (List Char) :=
  (wrapChunks maxChars (pySplit text) [] 0).map (List.intercalate [' '])

/-- Configured character budget per caption line (source line 40). -/
def MAX_CHARS_PER_LINE : Nat := 35

/-- Configured bound on displayed caption lines (source line 39). -/
def MAX_DISPLAY_LINES : Nat := 6

/-- CaptionState (source lines 107-126): the committed caption lines and the
line-count bound.  The asyncio lock only serialises access and has no
sequential content. -/
structure CaptionState where
  lines : List (List Char)
  max_lines : Nat
deriving DecidableEq

/-- The last n elements of a list; Python l[excess:] with excess = len - n. -/
def lastN (n : Nat) (l : List (List Char)) : List (List Char) :=
  l.drop (l.length - n)

/-- CaptionState.commit_final_phrase (source lines 114-126), parametrised by the
character budget (the source passes the configured MAX_CHARS_PER_LINE).
Returns the updated state together with the payload of the broadcast_state
call it makes, none when it returns early on an empty wrap. -/
def commit_final_phrase (st : CaptionState) (fa_text : List Char) (maxChars : Nat) :
    CaptionState × Option (List (List Char)) :=
  let chunks := wrap_fa fa_text maxChars
  if chunks = [] then (st, none)
  else
    let lines1 := st.lines ++ chunks
    let lines2 :=
      if lines1.length > st.max_lines then lines1.drop (lines1.length - st.max_lines)
      else lines1
    ({ st with lines := lines2 }, some lines2)

/-- A fresh CaptionState(max_lines) followed by a sequence of commits
(the claims quantify over such sequences). -/
def commitSeq (mc mL : Nat) (texts : List (List Char)) : CaptionState :=
  texts.foldl (fun st t => (commit_final_phrase st t mc).1) { lines := [], max_lines := mL }

/-- The concatenation of the wrapped lines of every committed phrase, in order. -/
def wrapHistory (mc : Nat) (texts : List (List Char)) : List (List Char) :=
  (texts.map (fun t => wrap_fa t mc)).flatten

/-- The two message shapes of the subscriber protocol (source lines 138 and 256). -/
inductive OutMsg
  | state : List (List Char) → OutMsg
  | active : List Char → OutMsg
deriving DecidableEq

/-- The handler inside caption_server (source lines 150-166): adds the new
subscriber to the client set, then sends it the current snapshot only when
the buffer is non-empty (the source guard is: if caption_state.lines).
Returns the new client set and the messages sent to the new subscriber. -/
def register_handler (clients : Finset Nat) (ws : Nat) (bufLines : List (List Char)) :
    Finset Nat × List OutMsg :=
  (insert ws clients, if bufLines = [] then [] else [OutMsg.state bufLines])

/-- broadcast_state (source lines 134-142): early return on an empty client set,
otherwise asyncio.gather over one send per client with return_exceptions set,
which attempts every send, converts each failure into a returned value instead
of an exception, and always returns normally.  send c says whether client c's
send succeeds; the result pairs each client with the message it received
(none when its own send failed). -/
def broadcast_state (send : Nat → Bool) (clients : List Nat) (lines : List (List Char)) :
    List (Nat × Option OutMsg) :=
  if clients = [] then []
  else clients.map (fun c => (c, if send c then some (OutMsg.state lines) else none))

/-- An incoming provider message as the receiver reads it (source lines 232-237):
a type tag, optional transcript and text fields, and the end_of_turn marker
(absent modelled as false, matching Python truthiness of msg.get). -/
structure PyMsg where
  type : List Char
  transcript : Option (List Char)
  text : Option (List Char)
  end_of_turn : Bool
deriving DecidableEq

/-- msg.get("transcript") or msg.get("text") or "" (source line 235):
the first truthy (present and non-empty) of the two fields, else empty. -/
def pyGetText (m : PyMsg) : List Char :=
  let t := m.transcript.getD []
  if t = [] then m.text.getD [] else t

/-- How the receiver treats one incoming message: ignored, final, or a
real-time update carrying the stripped transcript. -/
inductive Classified
  | ignored : Classified
  | fin : List Char → Classified
  | prt : List Char → Classified
deriving DecidableEq

/-- Event classification of the receiver (source lines 234-241): only messages
typed Turn or FinalTranscript are considered; their transcript is stripped;
empty transcripts are skipped; is_final is end_of_turn or the FinalTranscript
type tag. -/
def classify (m : PyMsg) : Classified :=
  if m.type = "Turn".toList ∨ m.type = "FinalTranscript".toList then
    if pyStrip (pyGetText m) = [] then Classified.ignored
    else if m.end_of_turn = true ∨ m.type = "FinalTranscript".toList then
      Classified.fin (pyStrip (pyGetText m))
    else Classified.prt (pyStrip (pyGetText m))
  else Classified.ignored

/-- Observable state of the receiver: the caption buffer, the broadcasts made
(in order, both state and active payloads), and the translator invocations. -/
structure RecvState where
  cap : CaptionState
  broadcasts : List OutMsg
  calls : List (List Char)
deriving DecidableEq

/-- Processing of one classified message by the receiver (source lines 243-264),
with the translator as an oracle: tr t = none models translator.en_to_fa(t)
raising.  A Final whose translation raises records the call and returns the
abort flag true: the exception escapes the while loop into the except clause
at source line 266, ending the loop.  A Partial falls back to the untranslated
transcript (the inner try/except at source lines 252-255) and broadcasts the
active payload. -/
def processEvent (tr : List Char → Option (List Char)) (mc : Nat)
    (st : RecvState) (m : PyMsg) : RecvState × Bool :=
  match classify m with
  | Classified.ignored => (st, false)
  | Classified.fin t =>
      match tr t with
      | none => ({ st with calls := st.calls ++ [t] }, true)
      | some fa =>
          let r := commit_final_phrase st.cap fa mc
          ({ cap := r.1,
             broadcasts := st.broadcasts ++ (r.2.map OutMsg.state).toList,
             calls := st.calls ++ [t] }, false)
  | Classified.prt t =>
      ({ st with broadcasts := st.broadcasts ++ [OutMsg.active ((tr t).getD t)],
                 calls := st.calls ++ [t] }, false)

/-- The receiver while-loop (source lines 228-268) over a finite stream of
messages: processes messages in order, stopping as soon as one aborts
(an exception reaching the outer except ends the loop). -/
def runReceiver (tr : List Char → Option (List Char)) (mc : Nat) :
    RecvState → List PyMsg → RecvState
  | st, [] => st
  | st, m :: ms =>
      match processEvent tr mc st m with
      | (st1, true) => st1
      | (st1, false) => runReceiver tr mc st1 ms

/-- Observable actions of the supervisor loop in main (source lines 284-294). -/
inductive SupAction
  | drain : SupAction
  | attempt : Nat → SupAction
  | sleep : Nat → SupAction
deriving DecidableEq

/-- Whether a run_stream attempt ended by raising. -/
def isErr : Except (List Char) Unit → Bool
  | Except.error _ => true
  | Except.ok _ => false

def isSleepAction : SupAction → Bool
  | SupAction.sleep _ => true
  | _ => false

def isAttemptAction : SupAction → Bool
  | SupAction.attempt _ => true
  | _ => false

/-- The while-True loop of main (source lines 284-294), driven by the outcomes
of the successive run_stream attempts: each iteration drains the audio queue,
runs one attempt, and sleeps 3 seconds only when the attempt raised (the
asyncio.sleep(3) sits in the except branch; a normal return loops immediately). -/
def supervisorTrace : List (Except (List Char) Unit) → Nat → List SupAction
  | [], _ => []
  | o :: os, i =>
      SupAction.drain :: SupAction.attempt i ::
        (if isErr o then SupAction.sleep 3 :: supervisorTrace os (i + 1)
         else supervisorTrace os (i + 1))

/-- Translator oracle that raises on the text aa and translates anything else to BB. -/
def exTr : List Char → Option (List Char) :=
  fun t => if t = "aa".toList then none else some ("BB".toList)

/-- Translator oracle that always raises. -/
def failTr : List Char → Option (List Char) :=
  fun _ => none

/-- A Turn message with the end_of_turn marker set (a Final event). -/
def msgFinal (s : List Char) : PyMsg :=
  { type := "Turn".toList, transcript := some s, text := none, end_of_turn := true }

/-- A Turn message without the end_of_turn marker (a Partial event). -/
def msgPart (s : List Char) : PyMsg :=
  { type := "Turn".toList, transcript := some s, text := none, end_of_turn := false }

/-- A message of a type outside Turn and FinalTranscript that nevertheless
carries the end_of_turn marker and non-empty text. -/
def exMsgBegin : PyMsg :=
  { type := "Begin".toList, transcript := some ("hi".toList), text := none, end_of_turn := true }

/-- A Turn message whose transcript strips to empty. -/
def exMsgEmpty : PyMsg :=
  { type := "Turn".toList, transcript := some ("  ".toList), text := none, end_of_turn := false }

/-- Fresh receiver state over a fresh CaptionState(MAX_DISPLAY_LINES). -/
def recvInit : RecvState :=
  { cap := { lines := [], max_lines := MAX_DISPLAY_LINES }, broadcasts := [], calls := [] }

/-- Send oracle where subscriber 0 always fails and everyone else succeeds. -/
def sendFailA : Nat → Bool :=
  fun c => decide (c ≠ 0)

/-! ### Lemmas about pySplit -/

theorem pySplitAux_append_space (b : List Char) :
    ∀ (a acc : List Char),
      pySplitAux (a ++ ' ' :: b) acc = pySplitAux a acc ++ pySplitAux b [] := by
  intro a
  induction a with
  | nil =>
      intro acc
      by_cases h : acc = [] <;> simp [pySplitAux, isPySpace, h]
  | cons c a ih =>
      intro acc
      by_cases hc : isPySpace c
      · by_cases h : acc = [] <;> simp [pySplitAux, hc, h, ih]
      · simp [pySplitAux, hc, ih]

theorem pySplit_append_space (a b : List Char) :
    pySplit (a ++ ' ' :: b) = pySplit a ++ pySplit b :=
  pySplitAux_append_space b a []

theorem pySplitAux_word (w : List Char) (hw : ∀ c ∈ w, isPySpace c = false) :
    ∀ acc : List Char, (acc ≠ [] ∨ w ≠ []) → pySplitAux w acc = [acc.reverse ++ w] := by
  induction w with
  | nil =>
      intro acc hne
      have h : acc ≠ [] := by
        rcases hne with h | h
        · exact h
        · exact absurd rfl h
      simp [pySplitAux, h]
  | cons c w ih =>
      intro acc _
      have hc : isPySpace c = false := hw c (List.mem_cons_self c w)
      have hw2 : ∀ x ∈ w, isPySpace x = false := fun x hx => hw x (List.mem_cons_of_mem c hx)
      have := ih hw2 (c :: acc) (Or.inl (by simp))
      simp [pySplitAux, hc, this]

theorem pySplit_word (w : List Char) (hne : w ≠ [])
    (hw : ∀ c ∈ w, isPySpace c = false) : pySplit w = [w] := by
  simpa using pySplitAux_word w hw [] (Or.inr hne)

theorem pySplitAux_wf (s : List Char) :
    ∀ acc : List Char, (∀ c ∈ acc, isPySpace c = false) →
      ∀ w ∈ pySplitAux s acc, w ≠ [] ∧ ∀ c ∈ w, isPySpace c = false := by
  induction s with
  | nil =>
      intro acc hacc w hw
      by_cases h : acc = []
      · simp [pySplitAux, h] at hw
      · simp [pySplitAux, h] at hw
        subst hw
        refine ⟨by simpa using h, ?_⟩
        intro c hc
        exact hacc c (List.mem_reverse.mp hc)
  | cons c s ih =>
      intro acc hacc w hw
      by_cases hc : isPySpace c
      · by_cases h : acc = []
        · exact ih [] (by simp) w (by simpa [pySplitAux, hc, h] using hw)
        · simp [pySplitAux, hc, h] at hw
          rcases hw with hw | hw
          · subst hw
            refine ⟨by simpa using h, ?_⟩
            intro x hx
            exact hacc x (List.mem_reverse.mp hx)
          · exact ih [] (by simp) w hw
      · refine ih (c :: acc) ?_ w (by simpa [pySplitAux, hc] using hw)
        intro x hx
        rcases List.mem_cons.mp hx with rfl | hx
        · simpa using hc
        · exact hacc x hx

theorem pySplit_wf (s : List Char) :
    ∀ w ∈ pySplit s, w ≠ [] ∧ ∀ c ∈ w, isPySpace c = false :=
  pySplitAux_wf s [] (by simp)

theorem pySplitAux_allspace (s : List Char) (h : ∀ c ∈ s, isPySpace c = true) :
    ∀ acc : List Char, pySplitAux s acc = if acc = [] then [] else [acc.reverse] := by
  induction s with
  | nil => intro acc; rfl
  | cons c s ih =>
      intro acc
      have hc : isPySpace c = true := h c (List.mem_cons_self c s)
      have hs : ∀ x ∈ s, isPySpace x = true := fun x hx => h x (List.mem_cons_of_mem c hx)
      by_cases ha : acc = [] <;> simp [pySplitAux, hc, ha, ih hs]

theorem pySplit_allspace (s : List Char) (h : ∀ c ∈ s, isPySpace c = true) :
    pySplit s = [] := by
  simpa using pySplitAux_allspace s h []

/-! ### Lemmas about joining with single spaces -/

theorem intercalateSp_nil : List.intercalate [' '] ([] : List (List Char)) = [] := rfl

theorem intercalateSp_single (w : List Char) : List.intercalate [' '] [w] = w := by
  simp [List.intercalate]

theorem intercalateSp_cons (w : List Char) (t : List (List Char)) (h : t ≠ []) :
    List.intercalate [' '] (w :: t) = w ++ ' ' :: List.intercalate [' '] t := by
  cases t with
  | nil => exact absurd rfl h
  | cons x r => simp [List.intercalate, List.intersperse]

theorem pySplit_intercalate (c : List (List Char))
    (h : ∀ w ∈ c, w ≠ [] ∧ ∀ ch ∈ w, isPySpace ch = false) :
    pySplit (List.intercalate [' '] c) = c := by
  induction c with
  | nil => rfl
  | cons w t ih =>
      have hw := h w (List.mem_cons_self w t)
      have ht : ∀ x ∈ t, x ≠ [] ∧ ∀ ch ∈ x, isPySpace ch = false :=
        fun x hx => h x (List.mem_cons_of_mem w hx)
      cases t with
      | nil => simpa [intercalateSp_single] using pySplit_word w hw.1 hw.2
      | cons x r =>
          rw [intercalateSp_cons w (x :: r) (by simp), pySplit_append_space,
            pySplit_word w hw.1 hw.2, ih ht]
          rfl

/-! ### Lemmas about the wrap loop -/

/-- Length in characters of a chunk of words once joined with single spaces. -/
def lineLen (c : List (List Char)) : Nat := (List.intercalate [' '] c).length

theorem lineLen_nil : lineLen [] = 0 := rfl

theorem lineLen_single (w : List Char) : lineLen [w] = w.length := by
  simp [lineLen, intercalateSp_single]

theorem lineLen_append_single (c : List (List Char)) (w : List Char) (h : c ≠ []) :
    lineLen (c ++ [w]) = lineLen c + 1 + w.length := by
  induction c with
  | nil => exact absurd rfl h
  | cons x t ih =>
      cases t with
      | nil =>
          simp [lineLen, intercalateSp_cons x [w] (by simp), intercalateSp_single]
          omega
      | cons y r =>
          have h2 : (y :: r : List (List Char)) ≠ [] := by simp
          have h3 : (y :: r) ++ [w] ≠ ([] : List (List Char)) := by simp
          have hx := ih h2
          simp only [lineLen] at hx ⊢
          rw [List.cons_append, intercalateSp_cons x ((y :: r) ++ [w]) h3,
            intercalateSp_cons x (y :: r) h2]
          simp only [List.length_append, List.length_cons]
          omega

theorem wrapChunks_flatten (B : Nat) :
    ∀ (ws current : List (List Char)) (len : Nat),
      (wrapChunks B ws current len).flatten = current ++ ws := by
  intro ws
  induction ws with
  | nil =>
      intro current len
      by_cases h : current = [] <;> simp [wrapChunks, h]
  | cons w ws ih =>
      intro current len
      simp only [wrapChunks]
      split
      · simp [ih]
      · simp [ih]

theorem wrapChunks_good (B : Nat) :
    ∀ (ws current : List (List Char)) (len : Nat),
      len = lineLen current →
      (current.length ≤ 1 ∨ len ≤ B) →
      ∀ c ∈ wrapChunks B ws current len, c ≠ [] ∧ (c.length = 1 ∨ lineLen c ≤ B) := by
  intro ws
  induction ws with
  | nil =>
      intro current len hlen hinv c hc
      by_cases h : current = []
      · simp [wrapChunks, h] at hc
      · simp [wrapChunks, h] at hc
        subst hc
        refine ⟨h, ?_⟩
        rcases hinv with h1 | h1
        · left
          have : 0 < c.length := List.length_pos.mpr h
          omega
        · right
          omega
  | cons w ws ih =>
      intro current len hlen hinv c hc
      simp only [wrapChunks] at hc
      split at hc
      · rename_i hcond
        rcases List.mem_cons.mp hc with rfl | hc
        · refine ⟨hcond.2, ?_⟩
          rcases hinv with h1 | h1
          · left
            have : 0 < c.length := List.length_pos.mpr hcond.2
            omega
          · right
            omega
        · exact ih [w] w.length (by simp [lineLen_single]) (Or.inl (by simp)) c hc
      · rename_i hcond
        by_cases hcur : current = []
        · subst hcur
          have hlen0 : len = 0 := by simpa [lineLen_nil] using hlen
          subst hlen0
          refine ih [w] (0 + extraFor w []) ?_ (Or.inl (by simp)) c (by simpa using hc)
          simp [extraFor, lineLen_single]
        · have hle : len + extraFor w current ≤ B := by
            by_contra hgt
            exact hcond ⟨by omega, hcur⟩
          refine ih (current ++ [w]) (len + extraFor w current) ?_ (Or.inr hle) c hc
          rw [lineLen_append_single current w hcur, ← hlen]
          simp [extraFor, hcur]
          omega

theorem pySplit_intercalate_lines (chunks : List (List (List Char)))
    (h : ∀ c ∈ chunks, c ≠ [] ∧ ∀ w ∈ c, w ≠ [] ∧ ∀ ch ∈ w, isPySpace ch = false) :
    pySplit (List.intercalate [' '] (chunks.map (List.intercalate [' ']))) = chunks.flatten := by
  induction chunks with
  | nil => rfl
  | cons c rest ih =>
      have hc := h c (List.mem_cons_self c rest)
      have hrest : ∀ x ∈ rest, x ≠ [] ∧ ∀ w ∈ x, w ≠ [] ∧ ∀ ch ∈ w, isPySpace ch = false :=
        fun x hx => h x (List.mem_cons_of_mem c hx)
      cases rest with
      | nil =>
          simp only [List.map_cons, List.map_nil, intercalateSp_single, List.flatten_cons,
            List.flatten_nil, List.append_nil]
          exact pySplit_intercalate c hc.2
      | cons d rest2 =>
          rw [List.map_cons, intercalateSp_cons _ _ (by simp), pySplit_append_space,
            pySplit_intercalate c hc.2, ih hrest]
          simp

/-! ### Lemmas about the caption buffer -/

theorem dropDrop {α : Type} (l : List α) (m n : Nat) :
    (l.drop m).drop n = l.drop (m + n) := by
  induction l generalizing m with
  | nil => simp
  | cons x l ih =>
      cases m with
      | zero => simp
      | succ m =>
          have : m + 1 + n = (m + n) + 1 := by omega
          simp [this, ih m]

theorem drop_append_sub {α : Type} (a b : List α) (m : Nat) :
    (a ++ b).drop m = a.drop m ++ b.drop (m - a.length) := by
  induction a generalizing m with
  | nil => simp
  | cons x a ih =>
      cases m with
      | zero => simp
      | succ m => simpa [Nat.succ_sub_succ] using ih m

theorem lastN_length_le (n : Nat) (l : List (List Char)) : (lastN n l).length ≤ n := by
  simp only [lastN, List.length_drop]
  omega

theorem lastN_append_left (n : Nat) (a b : List (List Char)) :
    lastN n (lastN n a ++ b) = lastN n (a ++ b) := by
  simp only [lastN, drop_append_sub, List.length_append, List.length_drop, dropDrop]
  congr 1
  · congr 1
    omega
  · congr 1
    omega

theorem commit_max (st : CaptionState) (t : List Char) (mc : Nat) :
    (commit_final_phrase st t mc).1.max_lines = st.max_lines := by
  by_cases h : wrap_fa t mc = [] <;> simp [commit_final_phrase, h]

theorem commit_lines (st : CaptionState) (t : List Char) (mc : Nat) :
    (commit_final_phrase st t mc).1.lines =
      (if wrap_fa t mc = [] then st.lines
       else lastN st.max_lines (st.lines ++ wrap_fa t mc)) := by
  by_cases h : wrap_fa t mc = []
  · simp [commit_final_phrase, h]
  · simp only [commit_final_phrase, h, if_false, if_neg]
    split
    · rfl
    · rename_i hle
      have h0 : st.lines.length + (wrap_fa t mc).length - st.max_lines = 0 := by
        simp only [List.length_append] at hle
        omega
      simp [lastN, h0]

theorem commitSeq_lines (mc : Nat) (texts : List (List Char)) :
    ∀ (st : CaptionState) (H : List (List Char)),
      st.lines = lastN st.max_lines H →
      (texts.foldl (fun s t => (commit_final_phrase s t mc).1) st).lines
          = lastN st.max_lines (H ++ wrapHistory mc texts) ∧
      (texts.foldl (fun s t => (commit_final_phrase s t mc).1) st).max_lines
          = st.max_lines := by
  induction texts with
  | nil =>
      intro st H h
      simpa [wrapHistory] using h
  | cons t ts ih =>
      intro st H h
      have hmax := commit_max st t mc
      have hlines := commit_lines st t mc
      by_cases hw : wrap_fa t mc = []
      · have h1 : (commit_final_phrase st t mc).1.lines
            = lastN (commit_final_phrase st t mc).1.max_lines H := by
          rw [hmax, hlines, if_pos hw, h]
        have := ih (commit_final_phrase st t mc).1 H h1
        rw [hmax] at this
        simpa [wrapHistory, hw] using this
      · have h1 : (commit_final_phrase st t mc).1.lines
            = lastN (commit_final_phrase st t mc).1.max_lines (H ++ wrap_fa t mc) := by
          rw [hmax, hlines, if_neg hw, h, lastN_append_left]
        have := ih (commit_final_phrase st t mc).1 (H ++ wrap_fa t mc) h1
        rw [hmax] at this
        simpa [wrapHistory, List.append_assoc] using this

/-! ### Lemmas about stripping -/

theorem intercalate_head (c : List (List Char)) (hne : c ≠ [])
    (h : ∀ w ∈ c, w ≠ [] ∧ ∀ ch ∈ w, isPySpace ch = false) :
    ∃ ch rest, List.intercalate [' '] c = ch :: rest ∧ isPySpace ch = false := by
  cases c with
  | nil => exact absurd rfl hne
  | cons w t =>
      obtain ⟨hw1, hw2⟩ := h w (List.mem_cons_self w t)
      cases w with
      | nil => exact absurd rfl hw1
      | cons ch wr =>
          cases t with
          | nil => exact ⟨ch, wr, by simp [intercalateSp_single], hw2 ch (by simp)⟩
          | cons x r =>
              refine ⟨ch, wr ++ ' ' :: List.intercalate [' '] (x :: r), ?_, hw2 ch (by simp)⟩
              rw [intercalateSp_cons _ _ (by simp)]
              simp

theorem intercalate_rev_head (c : List (List Char)) (hne : c ≠ [])
    (h : ∀ w ∈ c, w ≠ [] ∧ ∀ ch ∈ w, isPySpace ch = false) :
    ∃ ch rest, (List.intercalate [' '] c).reverse = ch :: rest ∧ isPySpace ch = false := by
  induction c with
  | nil => exact absurd rfl hne
  | cons w t ih =>
      obtain ⟨hw1, hw2⟩ := h w (List.mem_cons_self w t)
      cases t with
      | nil =>
          cases hrev : w.reverse with
          | nil => exact absurd (List.reverse_eq_nil_iff.mp hrev) hw1
          | cons ch rest =>
              have hmem : ch ∈ w := List.mem_reverse.mp (by rw [hrev]; simp)
              exact ⟨ch, rest, by simpa [intercalateSp_single] using hrev, hw2 ch hmem⟩
      | cons x r =>
          have ht : ∀ y ∈ x :: r, y ≠ [] ∧ ∀ ch ∈ y, isPySpace ch = false :=
            fun y hy => h y (List.mem_cons_of_mem w hy)
          obtain ⟨ch, rest, hrev, hch⟩ := ih (by simp) ht
          refine ⟨ch, rest ++ ' ' :: w.reverse, ?_, hch⟩
          rw [intercalateSp_cons w (x :: r) (by simp)]
          simp [hrev]

theorem pyStrip_eq_self (l : List Char)
    (h1 : ∃ ch rest, l = ch :: rest ∧ isPySpace ch = false)
    (h2 : ∃ ch rest, l.reverse = ch :: rest ∧ isPySpace ch = false) :
    pyStrip l = l := by
  obtain ⟨c1, r1, he1, hc1⟩ := h1
  obtain ⟨c2, r2, he2, hc2⟩ := h2
  have d1 : l.dropWhile isPySpace = l := by
    rw [he1, List.dropWhile_cons, hc1]
    simp
  rw [pyStrip, d1, he2, List.dropWhile_cons, hc2]
  simp only [Bool.false_eq_true, if_false, ← he2, List.reverse_reverse]

/-! ### Claim theorems -/

/-- C1: for every input text and character budget B, wrap_fa returns lines each
of length at most B, except that an over-budget line is a single word of the
input preserved unsplit; and joining the returned lines with single spaces and
re-splitting on whitespace reproduces the word sequence of the input exactly. -/
theorem C1_wrap_law (text : List Char) (B : Nat) :
    (∀ l ∈ wrap_fa text B, l.length ≤ B ∨ (B < l.length ∧ l ∈ pySplit text)) ∧
    pySplit (List.intercalate [' '] (wrap_fa text B)) = pySplit text := by
  have hflat : (wrapChunks B (pySplit text) [] 0).flatten = pySplit text := by
    simpa using wrapChunks_flatten B (pySplit text) [] 0
  have hgood := wrapChunks_good B (pySplit text) [] 0 rfl (Or.inl (by simp))
  have hwf : ∀ c ∈ wrapChunks B (pySplit text) [] 0,
      c ≠ [] ∧ ∀ w ∈ c, w ≠ [] ∧ ∀ ch ∈ w, isPySpace ch = false := by
    intro c hc
    refine ⟨(hgood c hc).1, fun w hw => ?_⟩
    exact pySplit_wf text w (by rw [← hflat]; exact List.mem_flatten.mpr ⟨c, hc, hw⟩)
  constructor
  · intro l hl
    rw [wrap_fa, List.mem_map] at hl
    obtain ⟨c, hc, rfl⟩ := hl
    obtain ⟨hne, hcase⟩ := hgood c hc
    rcases hcase with h1 | h1
    · obtain ⟨w, rfl⟩ := List.length_eq_one.mp h1
      rw [intercalateSp_single]
      by_cases hb : w.length ≤ B
      · exact Or.inl hb
      · refine Or.inr ⟨by omega, ?_⟩
        rw [← hflat]
        exact List.mem_flatten.mpr ⟨[w], hc, by simp⟩
    · exact Or.inl h1
  · rw [wrap_fa, pySplit_intercalate_lines _ hwf, hflat]

/-- C1 witness: concrete instance at budget 10 on the text hello world foo. -/
theorem C1_witness :
    (("hello".toList).length ≤ 10 ∨
      (10 < ("hello".toList).length ∧ "hello".toList ∈ pySplit ("hello world foo".toList))) ∧
    pySplit (List.intercalate [' '] (wrap_fa ("hello world foo".toList) 10))
      = pySplit ("hello world foo".toList) :=
  ⟨(C1_wrap_law ("hello world foo".toList) 10).1 ("hello".toList) (by decide),
   (C1_wrap_law ("hello world foo".toList) 10).2⟩

/-- C2: after any sequence of commits from a fresh buffer, the CaptionBuffer
holds at most max_lines lines and is exactly the suffix of the concatenation of
all committed wrapped lines, so the oldest lines are evicted first and the
survivors keep their relative order; in particular, with budget 10 and
max_lines 2, committing hello world foo yields the lines hello / world foo, and
a further commit of bar evicts the oldest line, yielding world foo / bar. -/
theorem C2_eviction_fifo :
    (∀ (mc mL : Nat) (texts : List (List Char)),
        (commitSeq mc mL texts).lines = lastN mL (wrapHistory mc texts) ∧
        (commitSeq mc mL texts).lines.length ≤ mL) ∧
    (commitSeq 10 2 ["hello world foo".toList]).lines
        = ["hello".toList, "world foo".toList] ∧
    (commitSeq 10 2 ["hello world foo".toList, "bar".toList]).lines
        = ["world foo".toList, "bar".toList] := by
  refine ⟨?_, by decide, by decide⟩
  intro mc mL texts
  have h := commitSeq_lines mc texts { lines := [], max_lines := mL } [] (by simp [lastN])
  have h1 : (commitSeq mc mL texts).lines = lastN mL (wrapHistory mc texts) := by
    simpa [commitSeq] using h.1
  exact ⟨h1, h1 ▸ lastN_length_le _ _⟩

/-- C2 witness: the general suffix law applied at budget 10, max_lines 2. -/
theorem C2_witness :
    (commitSeq 10 2 ["hello world foo".toList]).lines
      = lastN 2 (wrapHistory 10 ["hello world foo".toList]) :=
  (C2_eviction_fifo.1 10 2 ["hello world foo".toList]).1

/-- C9: committing an empty or whitespace-only phrase is a no-op: the buffer is
unchanged and no broadcast_state call is made. -/
theorem C9_empty_commit_noop (st : CaptionState) (t : List Char) (mc : Nat)
    (h : ∀ c ∈ t, isPySpace c = true) :
    commit_final_phrase st t mc = (st, none) := by
  have hs : pySplit t = [] := pySplit_allspace t h
  simp [commit_final_phrase, wrap_fa, hs, wrapChunks]

/-- C9 witness: committing a tab-and-spaces phrase leaves a one-line buffer
unchanged and produces no broadcast. -/
theorem C9_witness :
    commit_final_phrase { lines := ["abc".toList], max_lines := 6 } (" \t ".toList) 35
      = ({ lines := ["abc".toList], max_lines := 6 }, none) :=
  C9_empty_commit_noop { lines := ["abc".toList], max_lines := 6 } (" \t ".toList) 35
    (by decide)

/-- C10: wrap_fa depends only on the whitespace-separated word sequence of its
input; in particular wrapping the single-space rejoin of the words gives the
same lines; and every returned line is non-empty with neither leading nor
trailing whitespace (stripping it is the identity). -/
theorem C10_wrap_whitespace_insensitive (t t2 : List Char) (B : Nat)
    (h : pySplit t = pySplit t2) :
    wrap_fa t B = wrap_fa t2 B ∧
    wrap_fa t B = wrap_fa (List.intercalate [' '] (pySplit t)) B ∧
    ∀ l ∈ wrap_fa t B, l ≠ [] ∧ pyStrip l = l := by
  refine ⟨by rw [wrap_fa, wrap_fa, h], ?_, ?_⟩
  · rw [wrap_fa, wrap_fa, pySplit_intercalate (pySplit t) (pySplit_wf t)]
  · intro l hl
    rw [wrap_fa, List.mem_map] at hl
    obtain ⟨c, hc, rfl⟩ := hl
    have hflat : (wrapChunks B (pySplit t) [] 0).flatten = pySplit t := by
      simpa using wrapChunks_flatten B (pySplit t) [] 0
    have hgood := wrapChunks_good B (pySplit t) [] 0 rfl (Or.inl (by simp))
    have hwf : ∀ w ∈ c, w ≠ [] ∧ ∀ ch ∈ w, isPySpace ch = false := by
      intro w hw
      exact pySplit_wf t w (by rw [← hflat]; exact List.mem_flatten.mpr ⟨c, hc, hw⟩)
    have hne := (hgood c hc).1
    obtain ⟨ch, rest, hh, hch⟩ := intercalate_head c hne hwf
    constructor
    · rw [hh]
      simp
    · exact pyStrip_eq_self _ ⟨ch, rest, hh, hch⟩ (intercalate_rev_head c hne hwf)

/-- C10 witness: wrapping a text with extra whitespace equals wrapping its
normalised form. -/
theorem C10_witness :
    wrap_fa ("a  b ".toList) 3 = wrap_fa ("a b".toList) 3 :=
  (C10_wrap_whitespace_insensitive ("a  b ".toList) ("a b".toList) 3 (by decide)).1

/-- C3 counterexample: registering a subscriber while the buffer is empty sends
it no message at all, refuting the claim that every registering subscriber is
immediately sent a full-state message equal to the snapshot (the source guards
the catch-up send with: if caption_state.lines). -/
theorem C3_counterexample :
    (register_handler (∅ : Finset Nat) 0 []).2 = [] ∧
    OutMsg.state [] ∉ (register_handler (∅ : Finset Nat) 0 []).2 := by
  decide

/-- C3 amended: a registering subscriber is added to the subscriber set; if the
buffer is non-empty it is immediately sent exactly one full-state message whose
lines equal the current snapshot, and if the buffer is empty no message is
sent. -/
theorem C3_register_catchup (clients : Finset Nat) (ws : Nat) (buf : List (List Char)) :
    ws ∈ (register_handler clients ws buf).1 ∧
    (buf ≠ [] → (register_handler clients ws buf).2 = [OutMsg.state buf]) ∧
    (buf = [] → (register_handler clients ws buf).2 = []) := by
  refine ⟨Finset.mem_insert_self ws clients, ?_, ?_⟩ <;>
    intro h <;> simp [register_handler, h]

/-- C3 witness: a subscriber joining a one-line buffer is registered and
receives exactly the snapshot. -/
theorem C3_witness :
    0 ∈ (register_handler (∅ : Finset Nat) 0 ["hi".toList]).1 ∧
    (register_handler (∅ : Finset Nat) 0 ["hi".toList]).2 = [OutMsg.state ["hi".toList]] :=
  ⟨(C3_register_catchup ∅ 0 ["hi".toList]).1,
   (C3_register_catchup ∅ 0 ["hi".toList]).2.1 (by decide)⟩

/-- C4 counterexample: with a translator that raises on aa and succeeds on bb,
the receiver given a Final aa followed by a Final bb commits nothing and
broadcasts nothing — the second Final, whose translation succeeds, is never
processed, refuting the claim that event processing continues with the next
event. -/
theorem C4_counterexample :
    exTr ("bb".toList) = some ("BB".toList) ∧
    (runReceiver exTr 35 recvInit [msgFinal ("aa".toList), msgFinal ("bb".toList)]).cap.lines
      = [] ∧
    (runReceiver exTr 35 recvInit [msgFinal ("aa".toList), msgFinal ("bb".toList)]).broadcasts
      = [] := by
  decide

/-- C4 amended: if translation raises for a Final event's text, no lines are
committed and no state broadcast is sent for that event, and the receiver loop
terminates: the remaining events of the session are not processed (only the
failing translator call is recorded; a new session must be created by the
supervisor before further events are handled). -/
theorem C4_final_failure_aborts (tr : List Char → Option (List Char)) (mc : Nat)
    (st : RecvState) (m : PyMsg) (ms : List PyMsg) (t : List Char)
    (h1 : classify m = Classified.fin t) (h2 : tr t = none) :
    runReceiver tr mc st (m :: ms) = { st with calls := st.calls ++ [t] } := by
  simp [runReceiver, processEvent, h1, h2]

/-- C4 witness: the failing Final aa aborts the receiver, leaving buffer and
broadcasts untouched. -/
theorem C4_witness :
    runReceiver exTr 35 recvInit [msgFinal ("aa".toList)]
      = { recvInit with calls := recvInit.calls ++ ["aa".toList] } :=
  C4_final_failure_aborts exTr 35 recvInit (msgFinal ("aa".toList)) [] ("aa".toList)
    (by decide) (by decide)

/-- C5 counterexample: a message of type Begin that carries the explicit
end-of-turn marker and non-empty transcript text is ignored entirely, refuting
the claim that a message is processed as Final exactly when it carries an
end-of-turn marker or a final-transcript type tag (the source first gates on
the type being Turn or FinalTranscript). -/
theorem C5_counterexample :
    exMsgBegin.end_of_turn = true ∧
    pyStrip (pyGetText exMsgBegin) ≠ [] ∧
    classify exMsgBegin = Classified.ignored := by
  decide

/-- C5 amended: only messages whose type tag is Turn or FinalTranscript are
classified — any other message is ignored even if it carries an end-of-turn
marker; among Turn/FinalTranscript messages, one is Final exactly when its
stripped transcript is non-empty and it has the end-of-turn marker or the
FinalTranscript tag, Partial exactly when its stripped transcript is non-empty
and it is not Final, and a message with empty (or whitespace-only) transcript
is ignored; an ignored message has no effect at all — no translation call, no
commit, no broadcast. -/
theorem C5_event_classification :
    (∀ (m : PyMsg) (t : List Char), classify m = Classified.fin t ↔
        ((m.type = "Turn".toList ∨ m.type = "FinalTranscript".toList) ∧
         t = pyStrip (pyGetText m) ∧ t ≠ [] ∧
         (m.end_of_turn = true ∨ m.type = "FinalTranscript".toList))) ∧
    (∀ (m : PyMsg) (t : List Char), classify m = Classified.prt t ↔
        ((m.type = "Turn".toList ∨ m.type = "FinalTranscript".toList) ∧
         t = pyStrip (pyGetText m) ∧ t ≠ [] ∧
         ¬(m.end_of_turn = true ∨ m.type = "FinalTranscript".toList))) ∧
    (∀ (tr : List Char → Option (List Char)) (mc : Nat) (st : RecvState) (m : PyMsg),
        classify m = Classified.ignored → processEvent tr mc st m = (st, false)) := by
  refine ⟨?_, ?_, ?_⟩
  · intro m t
    rw [classify]
    split
    · split
      · simp_all
      · split
        · rename_i h1 h2 h3
          constructor
          · intro he
            exact ⟨h1, by simpa using he.symm, by simp_all, h3⟩
          · intro ⟨_, he, _, _⟩
            simp [he]
        · rename_i h1 h2 h3
          constructor
          · intro he
            exact absurd he (by simp)
          · intro ⟨_, _, _, h4⟩
            exact absurd h4 h3
    · rename_i h1
      constructor
      · intro he
        exact absurd he (by simp)
      · intro ⟨h2, _, _, _⟩
        exact absurd h2 h1
  · intro m t
    rw [classify]
    split
    · split
      · simp_all
      · split
        · rename_i h1 h2 h3
          constructor
          · intro he
            exact absurd he (by simp)
          · intro ⟨_, _, _, h4⟩
            exact absurd h3 h4
        · rename_i h1 h2 h3
          constructor
          · intro he
            exact ⟨h1, by simpa using he.symm, by simp_all, h3⟩
          · intro ⟨_, he, _, _⟩
            simp [he]
    · rename_i h1
      constructor
      · intro he
        exact absurd he (by simp)
      · intro ⟨h2, _, _, _⟩
        exact absurd h2 h1
  · intro tr mc st m h
    simp [processEvent, h]

/-- C5 witness: a Turn message whose transcript is whitespace-only is ignored
and leaves the receiver state untouched. -/
theorem C5_witness :
    processEvent exTr 35 recvInit exMsgEmpty = (recvInit, false) :=
  C5_event_classification.2.2 exTr 35 recvInit exMsgEmpty (by decide)

/-- C6: if translation raises for a Partial event's text, the active-update
broadcast is still sent, carrying the untranslated source text as fallback,
and the caption buffer is untouched; the receiver does not abort. -/
theorem C6_partial_fallback (tr : List Char → Option (List Char)) (mc : Nat)
    (st : RecvState) (m : PyMsg) (t : List Char)
    (h1 : classify m = Classified.prt t) (h2 : tr t = none) :
    processEvent tr mc st m =
      ({ st with broadcasts := st.broadcasts ++ [OutMsg.active t],
                 calls := st.calls ++ [t] }, false) := by
  simp [processEvent, h1, h2]

/-- C6 witness: with an always-failing translator, a Partial testing event
broadcasts the literal active text testing. -/
theorem C6_witness :
    processEvent failTr 35 recvInit (msgPart ("testing".toList)) =
      ({ recvInit with
          broadcasts := recvInit.broadcasts ++ [OutMsg.active ("testing".toList)],
          calls := recvInit.calls ++ ["testing".toList] }, false) :=
  C6_partial_fallback failTr 35 recvInit (msgPart ("testing".toList)) ("testing".toList)
    (by decide) rfl

/-- C7: broadcast_state attempts a send to every registered subscriber and
returns normally whatever the send outcomes are — each subscriber whose own
send succeeds receives the state message regardless of any other subscriber's
failure — and broadcasting to an empty subscriber set is a no-op; concretely,
with subscribers 0, 1, 2 where 0's send always fails, 1 and 2 still receive
the message. -/
theorem C7_broadcast_isolation :
    (∀ (send : Nat → Bool) (clients : List Nat) (lines : List (List Char)) (c : Nat),
        c ∈ clients → send c = true →
        (c, some (OutMsg.state lines)) ∈ broadcast_state send clients lines) ∧
    (∀ (send : Nat → Bool) (lines : List (List Char)),
        broadcast_state send [] lines = []) ∧
    broadcast_state sendFailA [0, 1, 2] ["hi".toList] =
      [(0, none), (1, some (OutMsg.state ["hi".toList])),
       (2, some (OutMsg.state ["hi".toList]))] := by
  refine ⟨?_, ?_, by decide⟩
  · intro send clients lines c hc hs
    have hne : clients ≠ [] := by
      rintro rfl
      simp at hc
    rw [broadcast_state, if_neg hne]
    exact List.mem_map.mpr ⟨c, hc, by simp [hs]⟩
  · intro send lines
    simp [broadcast_state]

/-- C7 witness: subscriber 1 receives the state message although subscriber 0's
send fails. -/
theorem C7_witness :
    (1, some (OutMsg.state ["hi".toList]))
      ∈ broadcast_state sendFailA [0, 1, 2] ["hi".toList] :=
  C7_broadcast_isolation.1 sendFailA [0, 1, 2] ["hi".toList] 1 (by decide) (by decide)

/-- C8 counterexample: a run_stream attempt that returns normally is followed
by the next drain and attempt with no sleep in between — the whole trace of a
normal attempt followed by a failing one contains a single sleep, after the
failure only — refuting the claim that the supervisor waits 3 seconds after
every attempt however it ends. -/
theorem C8_counterexample :
    supervisorTrace [Except.ok (), Except.error ("boom".toList)] 0 =
      [SupAction.drain, SupAction.attempt 0, SupAction.drain, SupAction.attempt 1,
       SupAction.sleep 3] ∧
    SupAction.sleep 3 ∉
      (supervisorTrace [Except.ok (), Except.error ("boom".toList)] 0).take 4 := by
  decide

/-- C8 amended: the supervisor loop is unbounded — it drains the stale audio
queue before each attempt and runs one attempt per outcome with no retry-count
limit — and it sleeps the fixed 3-second backoff exactly after the attempts
that raised: an attempt that returns normally is followed immediately by the
next drain and attempt. -/
theorem C8_supervisor_backoff :
    (∀ (os : List (Except (List Char) Unit)) (i : Nat),
        ((supervisorTrace os i).filter isAttemptAction).length = os.length) ∧
    (∀ (os : List (Except (List Char) Unit)) (i : Nat),
        ((supervisorTrace os i).filter isSleepAction).length = (os.filter isErr).length) ∧
    (∀ (o : Except (List Char) Unit) (os : List (Except (List Char) Unit)) (i : Nat),
        supervisorTrace (o :: os) i =
          SupAction.drain :: SupAction.attempt i ::
            (if isErr o then SupAction.sleep 3 :: supervisorTrace os (i + 1)
             else supervisorTrace os (i + 1))) := by
  refine ⟨?_, ?_, fun o os i => rfl⟩
  · intro os
    induction os with
    | nil => intro i; rfl
    | cons o os ih =>
        intro i
        cases o <;> simp [supervisorTrace, isErr, isAttemptAction, isSleepAction, ih]
  · intro os
    induction os with
    | nil => intro i; rfl
    | cons o os ih =>
        intro i
        cases o <;> simp [supervisorTrace, isErr, isAttemptAction, isSleepAction, ih]

/-- C8 witness: one normal attempt and one failing attempt give two attempts
in the trace. -/
theorem C8_witness :
    ((supervisorTrace [Except.ok (), Except.error ("boom".toList)] 0).filter
        isAttemptAction).length = 2 :=
  C8_supervisor_backoff.1 [Except.ok (), Except.error ("boom".toList)] 0

end TranslatorBackend
